import Mathlib

/-!
Verification of the `Cryptography` facade (src/cryptography.js).

The facade exposes four operations — `hash`, `salt`, `encrypt`, `decrypt` —
plus two base-64 helpers `u8a2b64` and `b642u8a`.  Byte sequences are
modelled as `List Nat` with every element `< 256`.  The platform engine
(`crypto.subtle`, `crypto.getRandomValues`, `TextEncoder`/`TextDecoder`,
`btoa`/`atob`) is the browser's Web Crypto stack: the encoding layers and
the PBKDF2/GCM skeletons are modelled concretely, while the trusted inner
primitives (AES block cipher, HMAC-SHA512, SHA-256, the random source and
the raw-key import policy) are parameters of the model, since the source
delegates them wholesale to the platform.
-/

namespace Cryptography

/-- Error taxonomy of the facade (spec section 7): malformed base-64 input,
raw key material rejected by the platform import, or AEAD tag verification
failure. -/
inductive CryptoError where
  | InvalidEncoding
  | InvalidKeyMaterial
  | AuthenticationFailure
deriving DecidableEq, Repr

/-! ## Base-64 codec (`btoa` / `atob`) -/

/-- The standard base-64 alphabet used by `btoa`/`atob`. -/
def b64Alphabet : List Char :=
  "ABCDEFGHIJKLMNOPQRSTUVWXYZabcdefghijklmnopqrstuvwxyz0123456789+/".data

/-- Character for a 6-bit value (index into the standard alphabet). -/
def b64Char (n : Nat) : Char := b64Alphabet.getD n 'A'

/-- Position of a character in the standard base-64 alphabet, `none` when the
character is not in the alphabet (this is how `atob` rejects input). -/
def b64Index (c : Char) : Option Nat :=
  let n := c.toNat
  if 65 ≤ n ∧ n ≤ 90 then some (n - 65)
  else if 97 ≤ n ∧ n ≤ 122 then some (n - 97 + 26)
  else if 48 ≤ n ∧ n ≤ 57 then some (n - 48 + 52)
  else if c = '+' then some 62
  else if c = '/' then some 63
  else none

/-- Character-level body of `btoa`: encode bytes in groups of three, emitting
`=` padding for a trailing group of one or two bytes, exactly as `btoa` does. -/
def u8a2b64Bytes : List Nat → List Char
  | [] => []
  | [a] => [b64Char (a / 4), b64Char (a % 4 * 16), '=', '=']
  | [a, b] => [b64Char (a / 4), b64Char (a % 4 * 16 + b / 16), b64Char (b % 16 * 4), '=']
  | a :: b :: c :: t =>
      b64Char (a / 4) :: b64Char (a % 4 * 16 + b / 16) ::
      b64Char (b % 16 * 4 + c / 64) :: b64Char (c % 64) :: u8a2b64Bytes t

/-- Source `u8a2b64` (line 102): `btoa(String.fromCharCode(...u8a))` — the
standard base-64 encoding of a byte sequence. -/
def u8a2b64 (u8a : List Nat) : String := String.mk (u8a2b64Bytes u8a)

/-- ASCII whitespace, which forgiving-base-64 decoding (`atob`) removes
before doing anything else. -/
def isB64Ws (c : Char) : Bool :=
  c.toNat = 9 || c.toNat = 10 || c.toNat = 12 || c.toNat = 13 || c.toNat = 32

/-- Strip one or two trailing `=` from a reversed character list (helper for
forgiving-base-64 padding removal). -/
def stripPadRev (l : List Char) : List Char :=
  match l with
  | c1 :: c2 :: t => if c1 = '=' then (if c2 = '=' then t else c2 :: t) else l
  | c1 :: t => if c1 = '=' then t else c1 :: t
  | [] => []

/-- Padding removal step of forgiving base-64: when the length is a multiple
of four, up to two trailing `=` are removed. -/
def stripPad (l : List Char) : List Char :=
  if l.length % 4 = 0 then (stripPadRev l.reverse).reverse else l

/-- Regroup 6-bit values into bytes: four values give three bytes, a trailing
pair gives one byte and a trailing triple two bytes (leftover bits are
discarded, as forgiving base-64 prescribes). -/
def b64Decode4 : List Nat → List Nat
  | a :: b :: c :: d :: t =>
      (a * 4 + b / 16) :: (b % 16 * 16 + c / 4) :: (c % 4 * 64 + d) :: b64Decode4 t
  | [a, b] => [a * 4 + b / 16]
  | [a, b, c] => [a * 4 + b / 16, b % 16 * 16 + c / 4]
  | _ => []

/-- Source `b642u8a` (line 113): `new Uint8Array([...atob(b64)].map(c => c.charCodeAt(0)))`.
`atob` implements forgiving base-64: remove ASCII whitespace, strip up to two
trailing `=` when the length is a multiple of four, reject a remaining length
of 1 mod 4 or any character outside the alphabet, then regroup the 6-bit
values into bytes.  `none` models the `InvalidCharacterError` throw. -/
def b642u8a (b64 : String) : Option (List Nat) :=
  let cs := b64.data.filter (fun c => !isB64Ws c)
  let cs := stripPad cs
  if cs.length % 4 = 1 then none
  else (cs.mapM b64Index).map b64Decode4

/-- The 6-bit values of the encoding of a byte list (specification helper
for the encoder's group structure). -/
def b64Sixbits : List Nat → List Nat
  | [] => []
  | [a] => [a / 4, a % 4 * 16]
  | [a, b] => [a / 4, a % 4 * 16 + b / 16, b % 16 * 4]
  | a :: b :: c :: t =>
      a / 4 :: (a % 4 * 16 + b / 16) :: (b % 16 * 4 + c / 64) :: c % 64 :: b64Sixbits t

/-- Number of `=` padding characters in the encoding of a byte list. -/
def b64PadLen : List Nat → Nat
  | [] => 0
  | [_] => 2
  | [_, _] => 1
  | _ :: _ :: _ :: t => b64PadLen t

/-- Spec-side validity of a base-64 string, following the spec's words for
section 4.4 ("standard base-64 semantics", "standard alphabet with padding,
no URL-safe variant"): the length is a multiple of four and, after removing
up to two trailing `=`, every character is from the standard alphabet.  This
is deliberately the spec's syntactic notion, to be compared with the
behaviour of `b642u8a`. -/
def specValidB64 (s : String) : Bool :=
  s.data.length % 4 == 0 && (stripPadRev s.data.reverse).all (fun c => (b64Index c).isSome)

/-! ## Text codec (`TextEncoder` / `TextDecoder`, UTF-8) -/

/-- UTF-8 encoding of a single Unicode scalar value (what `TextEncoder`
produces for each character; Lean characters are exactly the Unicode scalar
values). -/
def utf8EncodeChar (c : Char) : List Nat :=
  let v := c.toNat
  if v < 0x80 then [v]
  else if v < 0x800 then [0xC0 + v / 64, 0x80 + v % 64]
  else if v < 0x10000 then [0xE0 + v / 4096, 0x80 + v / 64 % 64, 0x80 + v % 64]
  else [0xF0 + v / 262144, 0x80 + v / 4096 % 64, 0x80 + v / 64 % 64, 0x80 + v % 64]

/-- Model of `new TextEncoder().encode(s)`: the UTF-8 bytes of the string. -/
def utf8Encode (s : String) : List Nat := s.data.flatMap utf8EncodeChar

/-- UTF-8 continuation byte test. -/
def contByte (b : Nat) : Prop := 0x80 ≤ b ∧ b ≤ 0xBF

instance (b : Nat) : Decidable (contByte b) := by unfold contByte; infer_instance

/-- The replacement character U+FFFD emitted by `TextDecoder` (default,
non-fatal mode) for malformed input. -/
def replChar : Char := Char.ofNat 0xFFFD

/-- One step of the WHATWG UTF-8 decoder: given the first byte and the
remaining bytes, return the decoded character (or U+FFFD) and how many
further bytes were consumed.  The second-byte ranges follow the WHATWG
table, which excludes overlong forms and surrogates. -/
def utf8Step (a : Nat) (l : List Nat) : Char × Nat :=
  if a < 0x80 then (Char.ofNat a, 0)
  else if a < 0xC2 then (replChar, 0)
  else if a < 0xE0 then
    match l with
    | b :: _ =>
        if contByte b then (Char.ofNat ((a - 0xC0) * 64 + (b - 0x80)), 1)
        else (replChar, 0)
    | [] => (replChar, 0)
  else if a < 0xF0 then
    match l with
    | b :: l2 =>
        if (if a = 0xE0 then 0xA0 ≤ b ∧ b ≤ 0xBF
            else if a = 0xED then 0x80 ≤ b ∧ b ≤ 0x9F
            else contByte b) then
          match l2 with
          | c :: _ =>
              if contByte c then
                (Char.ofNat ((a - 0xE0) * 4096 + (b - 0x80) * 64 + (c - 0x80)), 2)
              else (replChar, 1)
          | [] => (replChar, 1)
        else (replChar, 0)
    | [] => (replChar, 0)
  else if a < 0xF5 then
    match l with
    | b :: l2 =>
        if (if a = 0xF0 then 0x90 ≤ b ∧ b ≤ 0xBF
            else if a = 0xF4 then 0x80 ≤ b ∧ b ≤ 0x8F
            else contByte b) then
          match l2 with
          | c :: l3 =>
              if contByte c then
                match l3 with
                | d :: _ =>
                    if contByte d then
                      (Char.ofNat ((a - 0xF0) * 262144 + (b - 0x80) * 4096 +
                        (c - 0x80) * 64 + (d - 0x80)), 3)
                    else (replChar, 2)
                | [] => (replChar, 2)
              else (replChar, 1)
          | [] => (replChar, 1)
        else (replChar, 0)
    | [] => (replChar, 0)
  else (replChar, 0)

/-- Character-level WHATWG UTF-8 decoder (non-fatal): malformed sequences
become U+FFFD and decoding continues. -/
def utf8DecodeChars : List Nat → List Char
  | [] => []
  | a :: l =>
      let s := utf8Step a l
      s.1 :: utf8DecodeChars (l.drop s.2)
termination_by l => l.length
decreasing_by simp_all [List.length_drop]; omega

/-- Model of `new TextDecoder().decode(bytes)`. -/
def utf8Decode (bs : List Nat) : String := String.mk (utf8DecodeChars bs)

/-! ## Byte and block helpers -/

/-- Big-endian interpretation of a byte list as a natural number. -/
def bytesToNatBE (l : List Nat) : Nat := l.foldl (fun acc b => acc * 256 + b) 0

/-- Big-endian byte representation of `n` using exactly `len` bytes. -/
def natToBytesBE (len n : Nat) : List Nat :=
  (List.range len).map (fun i => n / 256 ^ (len - 1 - i) % 256)

/-- Pointwise xor of two byte lists (truncates to the shorter). -/
def xorBytes (a b : List Nat) : List Nat := List.zipWith Nat.xor a b

/-! ## AES-GCM (NIST SP 800-38D), parameterized over the keyed block cipher -/

/-- Multiplication in GF(2^128) with the GCM reduction polynomial, blocks as
128-bit big-endian integers (SP 800-38D algorithm 1). -/
def gmul (x y : Nat) : Nat :=
  ((List.range 128).foldl (fun zv i =>
    let z := if x / 2 ^ (127 - i) % 2 = 1 then zv.1 ^^^ zv.2 else zv.1
    let v := if zv.2 % 2 = 0 then zv.2 / 2 else (zv.2 / 2) ^^^ (0xE1 <<< 120)
    (z, v)) ((0 : Nat), y)).1

/-- GHASH over a list of 128-bit blocks with hash subkey `h`. -/
def ghashBlocks (h : Nat) (blocks : List Nat) : Nat :=
  blocks.foldl (fun y b => gmul (y ^^^ b) h) 0

/-- Zero-pad a byte list on the right to a multiple of 16 bytes. -/
def pad16 (l : List Nat) : List Nat :=
  l ++ List.replicate ((16 - l.length % 16) % 16) 0

/-- Split a byte list (length a multiple of 16) into 128-bit blocks. -/
def toBlocks (l : List Nat) : List Nat :=
  (List.range ((l.length + 15) / 16)).map (fun i => bytesToNatBE ((l.drop (16 * i)).take 16))

/-- GHASH of AAD and ciphertext with the length block appended
(SP 800-38D step 5 of authentication). -/
def ghashFull (h : Nat) (aad c : List Nat) : Nat :=
  ghashBlocks h (toBlocks (pad16 aad) ++ toBlocks (pad16 c) ++
    [bytesToNatBE (natToBytesBE 8 (8 * aad.length) ++ natToBytesBE 8 (8 * c.length))])

/-- 32-bit wrapping increment of the low word of a 128-bit counter block. -/
def inc32 (n : Nat) : Nat := n / 2 ^ 32 * 2 ^ 32 + (n % 2 ^ 32 + 1) % 2 ^ 32

/-- Iterated `inc32`. -/
def inc32N : Nat → Nat → Nat
  | 0, n => n
  | k + 1, n => inc32 (inc32N k n)

/-- Initial counter block J0: for a 96-bit IV append a one-word counter,
otherwise (the facade always uses 64-byte IVs) GHASH the padded IV with its
length block. -/
def gcmJ0 (blk : List Nat → List Nat) (iv : List Nat) : Nat :=
  if iv.length = 12 then bytesToNatBE iv * 2 ^ 32 + 1
  else ghashFull (bytesToNatBE (blk (List.replicate 16 0))) [] iv

/-- First `n` bytes of the GCTR keystream starting at counter `inc32 j`. -/
def gcmKeystream (blk : List Nat → List Nat) (j n : Nat) : List Nat :=
  ((List.range ((n + 15) / 16)).flatMap
    (fun i => blk (natToBytesBE 16 (inc32N (i + 1) j)))).take n

/-- GCTR encryption/decryption body: xor the message with the keystream. -/
def gcmCt (blk : List Nat → List Nat) (iv msg : List Nat) : List Nat :=
  xorBytes msg (gcmKeystream blk (gcmJ0 blk iv) msg.length)

/-- The 16-byte GCM authentication tag over ciphertext `c` (empty AAD,
128-bit tag — Web Crypto's default `tagLength`). -/
def gcmTag (blk : List Nat → List Nat) (iv c : List Nat) : List Nat :=
  let h := bytesToNatBE (blk (List.replicate 16 0))
  xorBytes (blk (natToBytesBE 16 (gcmJ0 blk iv))) (natToBytesBE 16 (ghashFull h [] c))

/-- Model of `crypto.subtle.encrypt({name:"AES-GCM", iv}, key, msg)`: the
ciphertext with the 16-byte tag appended. -/
def gcmEncrypt (blk : List Nat → List Nat) (iv msg : List Nat) : List Nat :=
  gcmCt blk iv msg ++ gcmTag blk iv (gcmCt blk iv msg)

/-- Model of `crypto.subtle.decrypt({name:"AES-GCM", iv}, key, data)`: split
off the 16-byte tag, recompute it over the ciphertext body and compare;
`none` models the `OperationError` thrown on authentication failure. -/
def gcmDecrypt (blk : List Nat → List Nat) (iv data : List Nat) : Option (List Nat) :=
  if data.length < 16 then none
  else
    let c := data.take (data.length - 16)
    let t := data.drop (data.length - 16)
    if gcmTag blk iv c = t then some (gcmCt blk iv c) else none

/-! ## PBKDF2 (RFC 8018), parameterized over the HMAC pseudorandom function -/

/-- Iterate the PRF and xor the results (`U_2 ⊕ ... ⊕ U_c` folding). -/
def pbkdf2Iter (prf : List Nat → List Nat → List Nat) (pw : List Nat) :
    Nat → List Nat → List Nat → List Nat
  | 0, _, acc => acc
  | k + 1, u, acc =>
      let u2 := prf pw u
      pbkdf2Iter prf pw k u2 (xorBytes acc u2)

/-- One PBKDF2 block `F(P, S, c, i) = U_1 ⊕ ... ⊕ U_c`. -/
def pbkdf2F (prf : List Nat → List Nat → List Nat) (pw s : List Nat) (c i : Nat) : List Nat :=
  let u1 := prf pw (s ++ natToBytesBE 4 i)
  pbkdf2Iter prf pw (c - 1) u1 u1

/-- PBKDF2 with `c` iterations, PRF output length `hLen` bytes, deriving
`dkLen` bytes. -/
def pbkdf2 (prf : List Nat → List Nat → List Nat) (pw s : List Nat)
    (c dkLen hLen : Nat) : List Nat :=
  (((List.range ((dkLen + hLen - 1) / hLen)).flatMap
    (fun i => pbkdf2F prf pw s c (i + 1)))).take dkLen

/-! ## The platform engine and the four facade operations -/

/-- The trusted platform primitives the facade delegates to (spec section 6:
"all treated as trusted, pre-existing dependencies, not reimplemented").
`importKeyOk` is the platform's acceptance policy for raw PBKDF2 key
material (`crypto.subtle.importKey`, line 45); `hmacSHA512` the PRF inside
`deriveBits` (line 46); `sha256` the digest (lines 71/89); `aesBlock` the
keyed AES block cipher inside AES-GCM (lines 73/91). -/
structure Engine where
  importKeyOk : List Nat → Bool
  hmacSHA512 : List Nat → List Nat → List Nat
  sha256 : List Nat → List Nat
  aesBlock : List Nat → List Nat → List Nat

/-- Well-formedness of a keyed block cipher instance: 16-byte blocks of
bytes. -/
def BlockWF (blk : List Nat → List Nat) : Prop :=
  ∀ b, (blk b).length = 16 ∧ ∀ x ∈ blk b, x < 256

/-- Source `hash` (lines 44-48): import `text`'s UTF-8 bytes as raw PBKDF2
key material (this is the first awaited step, so its failure precedes the
salt decode), decode the salt from base-64, then derive 512 bits with
PBKDF2-HMAC-SHA512 at 1000 iterations and return them base-64 encoded. -/
def hash (E : Engine) (text salt : String) : Except CryptoError String :=
  if E.importKeyOk (utf8Encode text) then
    match b642u8a salt with
    | none => .error .InvalidEncoding
    | some saltB =>
        .ok (u8a2b64 (pbkdf2 E.hmacSHA512 (utf8Encode text) saltB 1000 64 64))
  else .error .InvalidKeyMaterial

/-- Source `salt` (lines 56-58): base-64 encoding of 64 bytes drawn from the
secure random source; the draw is passed explicitly. -/
def salt (rand : List Nat) : String := u8a2b64 rand

/-- Result record of `encrypt` (line 74). -/
structure Encryption where
  iv : String
  ciphertext : String
deriving DecidableEq, Repr

/-- Source `encrypt` (lines 69-75): draw a fresh 64-byte IV (the draw is
passed explicitly), take the SHA-256 digest of the secret's UTF-8 bytes as
the AES-256-GCM key, encrypt the plaintext's UTF-8 bytes, and return the IV
and ciphertext base-64 encoded. -/
def encrypt (E : Engine) (plaintext secret : String) (rand : List Nat) : Encryption :=
  let key := E.sha256 (utf8Encode secret)
  { iv := u8a2b64 rand
    ciphertext := u8a2b64 (gcmEncrypt (E.aesBlock key) rand (utf8Encode plaintext)) }

/-- Source `decrypt` (lines 87-93): decode the IV (evaluated first, at line
88), recompute the SHA-256 key from the secret, decode the ciphertext,
AES-GCM decrypt with tag verification, and UTF-8 decode the plaintext. -/
def decrypt (E : Engine) (ciphertext iv secret : String) : Except CryptoError String :=
  match b642u8a iv with
  | none => .error .InvalidEncoding
  | some ivB =>
      let key := E.sha256 (utf8Encode secret)
      match b642u8a ciphertext with
      | none => .error .InvalidEncoding
      | some ctB =>
          match gcmDecrypt (E.aesBlock key) ivB ctB with
          | none => .error .AuthenticationFailure
          | some ptB => .ok (utf8Decode ptB)

/-- A degenerate but well-formed engine used to instantiate the theorems at
concrete inputs. -/
def toyEngine : Engine where
  importKeyOk := fun km => !km.isEmpty
  hmacSHA512 := fun _ _ => List.replicate 64 0
  sha256 := fun _ => List.replicate 32 0
  aesBlock := fun _ _ => List.replicate 16 0

/-- A permissive engine whose raw-key import accepts empty key material, as
at least one reference runtime does (the source comment on line 37 records
that Firefox accepts it and then hangs in derivation). -/
def permissiveEngine : Engine where
  importKeyOk := fun _ => true
  hmacSHA512 := fun _ _ => List.replicate 64 0
  sha256 := fun _ => List.replicate 32 0
  aesBlock := fun _ _ => List.replicate 16 0

/-! ## Base-64 round-trip lemmas -/

/-- Induction on a byte list in the three-byte groups used by the encoder. -/
theorem chunk3Induction {P : List Nat → Prop} (h0 : P []) (h1 : ∀ a, P [a])
    (h2 : ∀ a b, P [a, b]) (h3 : ∀ a b c t, P t → P (a :: b :: c :: t)) :
    ∀ l, P l
  | [] => h0
  | [a] => h1 a
  | [a, b] => h2 a b
  | a :: b :: c :: t => h3 a b c t (chunk3Induction h0 h1 h2 h3 t)

theorem u8a2b64Bytes_structure (b : List Nat) :
    u8a2b64Bytes b = (b64Sixbits b).map b64Char ++ List.replicate (b64PadLen b) '=' := by
  induction b using chunk3Induction with
  | h0 => rfl
  | h1 a => rfl
  | h2 a b => rfl
  | h3 a b c t ih => simp [u8a2b64Bytes, b64Sixbits, b64PadLen, ih]

theorem b64PadLen_le (b : List Nat) : b64PadLen b ≤ 2 := by
  induction b using chunk3Induction with
  | h0 => simp [b64PadLen]
  | h1 a => simp [b64PadLen]
  | h2 a b => simp [b64PadLen]
  | h3 a b c t ih => simpa [b64PadLen] using ih

theorem b64Sixbits_lt (b : List Nat) (hb : ∀ x ∈ b, x < 256) :
    ∀ v ∈ b64Sixbits b, v < 64 := by
  induction b using chunk3Induction with
  | h0 => simp [b64Sixbits]
  | h1 a =>
      have := hb a (by simp)
      simp only [b64Sixbits, List.mem_cons, List.not_mem_nil, or_false]
      rintro v (rfl | rfl) <;> omega
  | h2 a b =>
      have ha := hb a (by simp)
      have hbb := hb b (by simp)
      simp only [b64Sixbits, List.mem_cons, List.not_mem_nil, or_false]
      rintro v (rfl | rfl | rfl) <;> omega
  | h3 a b c t ih =>
      have ha := hb a (by simp)
      have hbb := hb b (by simp)
      have hc := hb c (by simp)
      have ht : ∀ x ∈ t, x < 256 := fun x hx => hb x (by simp [hx])
      simp only [b64Sixbits, List.mem_cons]
      rintro v (rfl | rfl | rfl | rfl | hv)
      · omega
      · omega
      · omega
      · omega
      · exact ih ht v hv

theorem b64Sixbits_length_mod (b : List Nat) : (b64Sixbits b).length % 4 ≠ 1 := by
  induction b using chunk3Induction with
  | h0 => simp [b64Sixbits]
  | h1 a => simp [b64Sixbits]
  | h2 a b => simp [b64Sixbits]
  | h3 a b c t ih => simp only [b64Sixbits, List.length_cons]; omega

theorem b64Char_ne_eq : ∀ k, k < 64 → b64Char k ≠ '=' := by decide

theorem b64Char_not_ws : ∀ k, k < 64 → isB64Ws (b64Char k) = false := by decide

theorem b64Char_isAlpha : ∀ k, k < 64 → (b64Index (b64Char k)).isSome = true := by decide

theorem b64Index_b64Char : ∀ k, k < 64 → b64Index (b64Char k) = some k := by decide

theorem mem_u8a2b64Bytes (b : List Nat) (hb : ∀ x ∈ b, x < 256) :
    ∀ c ∈ u8a2b64Bytes b, (∃ k, k < 64 ∧ c = b64Char k) ∨ c = '=' := by
  intro c hc
  rw [u8a2b64Bytes_structure] at hc
  rcases List.mem_append.1 hc with h | h
  · rcases List.mem_map.1 h with ⟨k, hk, rfl⟩
    exact .inl ⟨k, b64Sixbits_lt b hb k hk, rfl⟩
  · exact .inr (List.eq_of_mem_replicate h)

theorem filter_ws_u8a2b64Bytes (b : List Nat) (hb : ∀ x ∈ b, x < 256) :
    (u8a2b64Bytes b).filter (fun c => !isB64Ws c) = u8a2b64Bytes b := by
  rw [List.filter_eq_self]
  intro c hc
  rcases mem_u8a2b64Bytes b hb c hc with ⟨k, hk, rfl⟩ | rfl
  · simp [b64Char_not_ws k hk]
  · decide

theorem length_u8a2b64Bytes (b : List Nat) : (u8a2b64Bytes b).length % 4 = 0 := by
  induction b using chunk3Induction with
  | h0 => rfl
  | h1 a => simp [u8a2b64Bytes]
  | h2 a b => simp [u8a2b64Bytes]
  | h3 a b c t ih => simp only [u8a2b64Bytes, List.length_cons]; omega

theorem stripPadRev_pad (m : List Char) (p : Nat) (hp : p ≤ 2)
    (hm : ∀ c ∈ m, c ≠ '=') : stripPadRev (List.replicate p '=' ++ m) = m := by
  interval_cases p
  · rcases m with _ | ⟨c1, _ | ⟨c2, t⟩⟩
    · rfl
    · have h1 := hm c1 (by simp)
      simp [stripPadRev, h1]
    · have h1 := hm c1 (by simp)
      simp [stripPadRev, h1]
  · rcases m with _ | ⟨c1, t⟩
    · rfl
    · have h1 := hm c1 (by simp)
      simp [stripPadRev, h1]
  · simp [stripPadRev]

theorem stripPad_u8a2b64Bytes (b : List Nat) (hb : ∀ x ∈ b, x < 256) :
    stripPad (u8a2b64Bytes b) = (b64Sixbits b).map b64Char := by
  have h4 := length_u8a2b64Bytes b
  unfold stripPad
  rw [if_pos h4, u8a2b64Bytes_structure, List.reverse_append, List.reverse_replicate,
    stripPadRev_pad _ _ (b64PadLen_le b), List.reverse_reverse]
  intro c hc
  rcases List.mem_map.1 (List.mem_reverse.1 hc) with ⟨k, hk, rfl⟩
  exact b64Char_ne_eq k (b64Sixbits_lt b hb k hk)

theorem mapM_b64Index_map (l : List Nat) (hl : ∀ x ∈ l, x < 64) :
    (l.map b64Char).mapM b64Index = some l := by
  induction l with
  | nil => rfl
  | cons a t ih =>
      have ha := hl a (by simp)
      have ht : ∀ x ∈ t, x < 64 := fun x hx => hl x (by simp [hx])
      rw [List.map_cons, List.mapM_cons, b64Index_b64Char a ha, ih ht]
      rfl

theorem b64Decode4_sixbits (b : List Nat) (hb : ∀ x ∈ b, x < 256) :
    b64Decode4 (b64Sixbits b) = b := by
  induction b using chunk3Induction with
  | h0 => rfl
  | h1 a =>
      have := hb a (by simp)
      simp only [b64Sixbits, b64Decode4]
      congr 1
      omega
  | h2 a b =>
      have ha := hb a (by simp)
      have hbb := hb b (by simp)
      simp only [b64Sixbits, b64Decode4]
      congr 1
      · omega
      · congr 1
        omega
  | h3 a b c t ih =>
      have ha := hb a (by simp)
      have hbb := hb b (by simp)
      have hc := hb c (by simp)
      have ht : ∀ x ∈ t, x < 256 := fun x hx => hb x (by simp [hx])
      simp only [b64Sixbits, b64Decode4, ih ht]
      congr 1
      · omega
      · congr 1
        · omega
        · congr 1
          omega

/-- Round trip: decoding the encoding of any byte sequence yields it back. -/
theorem b642u8a_u8a2b64 (b : List Nat) (hb : ∀ x ∈ b, x < 256) :
    b642u8a (u8a2b64 b) = some b := by
  unfold b642u8a u8a2b64
  simp only [filter_ws_u8a2b64Bytes b hb, stripPad_u8a2b64Bytes b hb]
  rw [if_neg (by simpa using b64Sixbits_length_mod b)]
  rw [mapM_b64Index_map _ (b64Sixbits_lt b hb)]
  simp [b64Decode4_sixbits b hb]

theorem specValidB64_u8a2b64 (b : List Nat) (hb : ∀ x ∈ b, x < 256) :
    specValidB64 (u8a2b64 b) = true := by
  have hne : ∀ c ∈ ((b64Sixbits b).map b64Char).reverse, c ≠ '=' := by
    intro c hc
    rcases List.mem_map.1 (List.mem_reverse.1 hc) with ⟨k, hk, rfl⟩
    exact b64Char_ne_eq k (b64Sixbits_lt b hb k hk)
  unfold specValidB64 u8a2b64
  rw [Bool.and_eq_true]
  constructor
  · simpa using length_u8a2b64Bytes b
  · rw [show (String.mk (u8a2b64Bytes b)).data = u8a2b64Bytes b from rfl,
      u8a2b64Bytes_structure, List.reverse_append, List.reverse_replicate,
      stripPadRev_pad _ _ (b64PadLen_le b) hne, List.all_eq_true]
    intro c hc
    rcases List.mem_map.1 (List.mem_reverse.1 hc) with ⟨k, hk, rfl⟩
    exact b64Char_isAlpha k (b64Sixbits_lt b hb k hk)

/-! ## UTF-8 round-trip lemmas -/

theorem utf8DecodeChars_nil : utf8DecodeChars [] = [] := by
  rw [utf8DecodeChars]

theorem utf8DecodeChars_cons (a : Nat) (l : List Nat) :
    utf8DecodeChars (a :: l) =
      (utf8Step a l).1 :: utf8DecodeChars (l.drop (utf8Step a l).2) := by
  rw [utf8DecodeChars]

/-- The character validity invariant as plain arithmetic on the scalar
value. -/
theorem char_toNat_valid (c : Char) :
    c.toNat < 0xD800 ∨ (0xDFFF < c.toNat ∧ c.toNat < 0x110000) := by
  rcases c.valid with h | h
  · exact .inl h
  · exact .inr ⟨h.1, h.2⟩

theorem utf8EncodeChar_lt (c : Char) : ∀ x ∈ utf8EncodeChar c, x < 256 := by
  have hv : c.toNat < 0x110000 := by
    rcases char_toNat_valid c with h | h
    · omega
    · exact h.2
  simp only [utf8EncodeChar]
  split
  · simp only [List.mem_cons, List.not_mem_nil, or_false]
    rintro x rfl; omega
  · split
    · simp only [List.mem_cons, List.not_mem_nil, or_false]
      rintro x (rfl | rfl) <;> omega
    · split
      · simp only [List.mem_cons, List.not_mem_nil, or_false]
        rintro x (rfl | rfl | rfl) <;> omega
      · simp only [List.mem_cons, List.not_mem_nil, or_false]
        rintro x (rfl | rfl | rfl | rfl) <;> omega

theorem utf8Encode_lt (s : String) : ∀ x ∈ utf8Encode s, x < 256 := by
  unfold utf8Encode
  intro x hx
  rcases List.mem_flatMap.1 hx with ⟨c, _, hc⟩
  exact utf8EncodeChar_lt c x hc

set_option maxRecDepth 4000 in
/-- Decoding one encoded character consumes exactly its bytes and yields the
character back. -/
theorem utf8DecodeChars_encodeChar (c : Char) (rest : List Nat) :
    utf8DecodeChars (utf8EncodeChar c ++ rest) = c :: utf8DecodeChars rest := by
  have hv := char_toNat_valid c
  have hofNat : Char.ofNat c.toNat = c := Char.ofNat_toNat c
  unfold utf8EncodeChar
  by_cases h1 : c.toNat < 0x80
  · rw [if_pos h1]
    rw [List.cons_append, List.nil_append, utf8DecodeChars_cons]
    unfold utf8Step
    rw [if_pos h1]
    simp [hofNat]
  · rw [if_neg h1]
    by_cases h2 : c.toNat < 0x800
    · rw [if_pos h2]
      rw [List.cons_append, List.cons_append, List.nil_append, utf8DecodeChars_cons]
      unfold utf8Step
      rw [if_neg (by omega), if_neg (by omega), if_pos (by omega)]
      simp only
      rw [if_pos (by constructor <;> omega)]
      simp only [List.drop_succ_cons, List.drop_zero]
      congr 1
      have : (0xC0 + c.toNat / 64 - 0xC0) * 64 + (0x80 + c.toNat % 64 - 0x80) = c.toNat := by
        omega
      rw [this, hofNat]
    · rw [if_neg h2]
      by_cases h3 : c.toNat < 0x10000
      · rw [if_pos h3]
        rw [List.cons_append, List.cons_append, List.cons_append, List.nil_append,
          utf8DecodeChars_cons]
        unfold utf8Step
        rw [if_neg (by omega), if_neg (by omega), if_neg (by omega), if_pos (by omega)]
        simp only
        have hcont2 : (if 0xE0 + c.toNat / 4096 = 0xE0 then
            0xA0 ≤ 0x80 + c.toNat / 64 % 64 ∧ 0x80 + c.toNat / 64 % 64 ≤ 0xBF
          else if 0xE0 + c.toNat / 4096 = 0xED then
            0x80 ≤ 0x80 + c.toNat / 64 % 64 ∧ 0x80 + c.toNat / 64 % 64 ≤ 0x9F
          else contByte (0x80 + c.toNat / 64 % 64)) := by
          unfold contByte
          split
          · constructor <;> omega
          · split
            · rcases hv with h | h
              · constructor <;> omega
              · constructor <;> omega
            · constructor <;> omega
        rw [if_pos hcont2, if_pos (by unfold contByte; constructor <;> omega)]
        simp only [List.drop_succ_cons, List.drop_zero]
        congr 1
        have : (0xE0 + c.toNat / 4096 - 0xE0) * 4096 + (0x80 + c.toNat / 64 % 64 - 0x80) * 64 +
            (0x80 + c.toNat % 64 - 0x80) = c.toNat := by
          omega
        rw [this, hofNat]
      · rw [if_neg h3]
        have h4 : c.toNat < 0x110000 := by
          rcases hv with h | h
          · omega
          · exact h.2
        rw [List.cons_append, List.cons_append, List.cons_append, List.cons_append,
          List.nil_append, utf8DecodeChars_cons]
        unfold utf8Step
        rw [if_neg (by omega), if_neg (by omega), if_neg (by omega), if_neg (by omega),
          if_pos (by omega)]
        simp only
        have hcont2 : (if 0xF0 + c.toNat / 262144 = 0xF0 then
            0x90 ≤ 0x80 + c.toNat / 4096 % 64 ∧ 0x80 + c.toNat / 4096 % 64 ≤ 0xBF
          else if 0xF0 + c.toNat / 262144 = 0xF4 then
            0x80 ≤ 0x80 + c.toNat / 4096 % 64 ∧ 0x80 + c.toNat / 4096 % 64 ≤ 0x8F
          else contByte (0x80 + c.toNat / 4096 % 64)) := by
          unfold contByte
          split
          · constructor <;> omega
          · split
            · constructor <;> omega
            · constructor <;> omega
        rw [if_pos hcont2, if_pos (by unfold contByte; constructor <;> omega),
          if_pos (by unfold contByte; constructor <;> omega)]
        simp only [List.drop_succ_cons, List.drop_zero]
        congr 1
        have : (0xF0 + c.toNat / 262144 - 0xF0) * 262144 +
            (0x80 + c.toNat / 4096 % 64 - 0x80) * 4096 +
            (0x80 + c.toNat / 64 % 64 - 0x80) * 64 + (0x80 + c.toNat % 64 - 0x80) = c.toNat := by
          omega
        rw [this, hofNat]

/-- Round trip: UTF-8 decoding the UTF-8 encoding of any string yields it
back. -/
theorem utf8Decode_utf8Encode (s : String) : utf8Decode (utf8Encode s) = s := by
  unfold utf8Decode utf8Encode
  suffices h : ∀ cs : List Char, utf8DecodeChars (cs.flatMap utf8EncodeChar) = cs by
    rw [h s.data]
  intro cs
  induction cs with
  | nil => simp [utf8DecodeChars_nil]
  | cons c t ih => rw [List.flatMap_cons, utf8DecodeChars_encodeChar, ih]

/-! ## AES-GCM round-trip lemmas -/

theorem natToBytesBE_length (len n : Nat) : (natToBytesBE len n).length = len := by
  simp [natToBytesBE]

theorem natToBytesBE_lt (len n : Nat) : ∀ x ∈ natToBytesBE len n, x < 256 := by
  intro x hx
  rcases List.mem_map.1 hx with ⟨i, _, rfl⟩
  exact Nat.mod_lt _ (by omega)

theorem flatMap_range_length {g : Nat → List Nat} (m : Nat)
    (hg : ∀ i, (g i).length = 16) : ((List.range m).flatMap g).length = 16 * m := by
  induction m with
  | zero => simp
  | succ k ih =>
      rw [List.range_succ, List.flatMap_append, List.length_append, ih]
      simp [hg k]
      omega

theorem gcmKeystream_length (blk : List Nat → List Nat) (hwf : BlockWF blk) (j n : Nat) :
    (gcmKeystream blk j n).length = n := by
  unfold gcmKeystream
  rw [List.length_take, flatMap_range_length _ (fun i => (hwf _).1)]
  omega

theorem gcmKeystream_lt (blk : List Nat → List Nat) (hwf : BlockWF blk) (j n : Nat) :
    ∀ x ∈ gcmKeystream blk j n, x < 256 := by
  intro x hx
  rcases List.mem_flatMap.1 (List.mem_of_mem_take hx) with ⟨i, _, hi⟩
  exact (hwf _).2 x hi

theorem xorBytes_lt (a b : List Nat) (ha : ∀ x ∈ a, x < 256) (hb : ∀ x ∈ b, x < 256) :
    ∀ x ∈ xorBytes a b, x < 256 := by
  unfold xorBytes
  induction a generalizing b with
  | nil => simp
  | cons x t ih =>
      rcases b with _ | ⟨y, yt⟩
      · simp
      · have hx := ha x (by simp)
        have hy := hb y (by simp)
        intro z hz
        simp only [List.zipWith_cons_cons, List.mem_cons] at hz
        rcases hz with rfl | hz
        · have e : (256 : Nat) = 2 ^ 8 := by norm_num
          rw [e] at hx hy ⊢
          exact Nat.xor_lt_two_pow hx hy
        · exact ih yt (fun u hu => ha u (by simp [hu])) (fun u hu => hb u (by simp [hu])) z hz

theorem xorBytes_xorBytes (m ks : List Nat) (h : ks.length = m.length) :
    xorBytes (xorBytes m ks) ks = m := by
  unfold xorBytes
  induction m generalizing ks with
  | nil => simp
  | cons a t ih =>
      rcases ks with _ | ⟨k, kt⟩
      · simp at h
      · simp only [List.zipWith_cons_cons]
        have hx : Nat.xor (Nat.xor a k) k = a := by
          rw [show Nat.xor (Nat.xor a k) k = a ^^^ k ^^^ k from rfl, Nat.xor_assoc,
            Nat.xor_self, Nat.xor_zero]
        rw [hx, ih kt (by simpa using h)]

theorem gcmCt_length (blk : List Nat → List Nat) (hwf : BlockWF blk) (iv msg : List Nat) :
    (gcmCt blk iv msg).length = msg.length := by
  unfold gcmCt xorBytes
  rw [List.length_zipWith, gcmKeystream_length blk hwf]
  omega

theorem gcmCt_lt (blk : List Nat → List Nat) (hwf : BlockWF blk) (iv msg : List Nat)
    (hm : ∀ x ∈ msg, x < 256) : ∀ x ∈ gcmCt blk iv msg, x < 256 :=
  xorBytes_lt _ _ hm (gcmKeystream_lt blk hwf _ _)

theorem gcmCt_involution (blk : List Nat → List Nat) (hwf : BlockWF blk) (iv msg : List Nat) :
    gcmCt blk iv (gcmCt blk iv msg) = msg := by
  have hlen := gcmCt_length blk hwf iv msg
  conv_lhs => rw [gcmCt]
  rw [hlen, gcmCt]
  exact xorBytes_xorBytes msg _ (gcmKeystream_length blk hwf _ _)

theorem gcmTag_length (blk : List Nat → List Nat) (hwf : BlockWF blk) (iv c : List Nat) :
    (gcmTag blk iv c).length = 16 := by
  unfold gcmTag xorBytes
  rw [List.length_zipWith, (hwf _).1, natToBytesBE_length]
  omega

theorem gcmTag_lt (blk : List Nat → List Nat) (hwf : BlockWF blk) (iv c : List Nat) :
    ∀ x ∈ gcmTag blk iv c, x < 256 := by
  unfold gcmTag
  exact xorBytes_lt _ _ (hwf _).2 (natToBytesBE_lt _ _)

/-- GCM round trip: decrypting an encryption (same block cipher instance and
IV) verifies the tag and returns the plaintext bytes. -/
theorem gcmDecrypt_gcmEncrypt (blk : List Nat → List Nat) (hwf : BlockWF blk)
    (iv msg : List Nat) : gcmDecrypt blk iv (gcmEncrypt blk iv msg) = some msg := by
  have hct := gcmCt_length blk hwf iv msg
  have htag := gcmTag_length blk hwf iv (gcmCt blk iv msg)
  unfold gcmEncrypt gcmDecrypt
  have hlen : (gcmCt blk iv msg ++ gcmTag blk iv (gcmCt blk iv msg)).length =
      msg.length + 16 := by
    rw [List.length_append, hct, htag]
  rw [if_neg (by omega)]
  have hsplit : (gcmCt blk iv msg ++ gcmTag blk iv (gcmCt blk iv msg)).length - 16 =
      (gcmCt blk iv msg).length := by omega
  rw [hsplit, List.take_left, List.drop_left, if_pos rfl, gcmCt_involution blk hwf]

theorem gcmEncrypt_lt (blk : List Nat → List Nat) (hwf : BlockWF blk) (iv msg : List Nat)
    (hm : ∀ x ∈ msg, x < 256) : ∀ x ∈ gcmEncrypt blk iv msg, x < 256 := by
  intro x hx
  rcases List.mem_append.1 hx with h | h
  · exact gcmCt_lt blk hwf iv msg hm x h
  · exact gcmTag_lt blk hwf iv _ x h

/-! ## Claim theorems -/

/-- The toy engine's block cipher is well-formed at every key. -/
theorem toyEngine_blockWF (k : List Nat) : BlockWF (toyEngine.aesBlock k) := by
  intro b
  constructor
  · simp [toyEngine]
  · intro x hx
    simp only [toyEngine] at hx
    have := List.eq_of_mem_replicate hx
    omega

/-- C1: for every plaintext string p and every secret string s, if
`encrypt(p, s)` returns the pair `{iv, ciphertext}`, then
`decrypt(ciphertext, iv, s)` returns p — for any platform engine whose AES
block cipher instance at the derived key maps 16-byte blocks to 16-byte
blocks (the random draw `r` is the IV bytes produced by
`crypto.getRandomValues`). -/
theorem C1_roundtrip (E : Engine) (p s : String) (r : List Nat)
    (hr : ∀ x ∈ r, x < 256)
    (hwf : BlockWF (E.aesBlock (E.sha256 (utf8Encode s)))) :
    decrypt E (encrypt E p s r).ciphertext (encrypt E p s r).iv s = .ok p := by
  have hivEq : (encrypt E p s r).iv = u8a2b64 r := rfl
  have hctEq : (encrypt E p s r).ciphertext =
      u8a2b64 (gcmEncrypt (E.aesBlock (E.sha256 (utf8Encode s))) r (utf8Encode p)) := rfl
  unfold decrypt
  rw [hivEq, hctEq, b642u8a_u8a2b64 r hr,
    b642u8a_u8a2b64 _ (gcmEncrypt_lt _ hwf _ _ (utf8Encode_lt p))]
  simp only [gcmDecrypt_gcmEncrypt _ hwf, utf8Decode_utf8Encode]

theorem C1_roundtrip_witness :
    (∀ x ∈ [7, 200], x < 256) ∧
      BlockWF (toyEngine.aesBlock (toyEngine.sha256 (utf8Encode "key123"))) ∧
      decrypt toyEngine (encrypt toyEngine "secret message" "key123" [7, 200]).ciphertext
        (encrypt toyEngine "secret message" "key123" [7, 200]).iv "key123" =
        .ok "secret message" :=
  ⟨by decide, toyEngine_blockWF _,
    C1_roundtrip toyEngine "secret message" "key123" [7, 200] (by decide)
      (toyEngine_blockWF _)⟩

/-- C2: whenever the authentication tag does not verify during decrypt
(`gcmDecrypt` returns `none` on the decoded inputs under the key derived
from the secret), `decrypt` fails with `AuthenticationFailure` and never
returns a plaintext. -/
theorem C2_auth_failure (E : Engine) (ct iv secret : String) (ivB ctB : List Nat)
    (hiv : b642u8a iv = some ivB) (hct : b642u8a ct = some ctB)
    (hfail : gcmDecrypt (E.aesBlock (E.sha256 (utf8Encode secret))) ivB ctB = none) :
    decrypt E ct iv secret = .error .AuthenticationFailure ∧
      ∀ p, decrypt E ct iv secret ≠ .ok p := by
  have hmain : decrypt E ct iv secret = .error .AuthenticationFailure := by
    unfold decrypt
    rw [hiv, hct]
    simp only [hfail]
  exact ⟨hmain, fun p h => by rw [hmain] at h; exact Except.noConfusion h⟩

theorem C2_auth_failure_witness :
    b642u8a "" = some [] ∧
      b642u8a (u8a2b64 (List.replicate 16 1)) = some (List.replicate 16 1) ∧
      gcmDecrypt (toyEngine.aesBlock (toyEngine.sha256 (utf8Encode "k"))) []
        (List.replicate 16 1) = none ∧
      decrypt toyEngine (u8a2b64 (List.replicate 16 1)) "" "k" =
        .error .AuthenticationFailure :=
  ⟨by decide, by decide, by decide,
    (C2_auth_failure toyEngine (u8a2b64 (List.replicate 16 1)) "" "k" [] (List.replicate 16 1)
      (by decide) (by decide) (by decide)).1⟩

/-- C3: when the platform accepts the text's bytes as key material and the
salt is valid base-64, `hash` returns exactly the base-64 encoding of the
64-byte PBKDF2 output with the platform's HMAC-SHA512 as PRF, the decoded
salt bytes as salt and 1000 iterations, applied to the text's encoded
bytes; and it is deterministic: equal `(text, salt)` pairs give equal
output. -/
theorem C3_hash_pbkdf2 (E : Engine) (t s : String) (saltB : List Nat)
    (himp : E.importKeyOk (utf8Encode t) = true)
    (hsalt : b642u8a s = some saltB) :
    hash E t s = .ok (u8a2b64 (pbkdf2 E.hmacSHA512 (utf8Encode t) saltB 1000 64 64)) ∧
      ∀ t2 s2, t2 = t → s2 = s → hash E t2 s2 = hash E t s := by
  constructor
  · unfold hash
    rw [himp, hsalt]
    simp
  · rintro t2 s2 rfl rfl
    rfl

theorem C3_hash_pbkdf2_witness :
    toyEngine.importKeyOk (utf8Encode "hello") = true ∧
      b642u8a "AA==" = some [0] ∧
      hash toyEngine "hello" "AA==" =
        .ok (u8a2b64 (pbkdf2 toyEngine.hmacSHA512 (utf8Encode "hello") [0] 1000 64 64)) :=
  ⟨by decide, by decide,
    (C3_hash_pbkdf2 toyEngine "hello" "AA==" [0] (by decide) (by decide)).1⟩

/-- C4: `encrypt` uses the 64 fresh random bytes as IV, uses the SHA-256
digest of the secret's encoded bytes (not the secret itself) as the 32-byte
(256-bit) AES-GCM key, encrypts the plaintext's encoded bytes under that
key and IV, and returns both fields base-64 encoded with the `iv` field
decoding to exactly the 64 IV bytes. -/
theorem C4_encrypt_structure (E : Engine) (p s : String) (r : List Nat)
    (hr : ∀ x ∈ r, x < 256) (hlen : r.length = 64)
    (hwf : BlockWF (E.aesBlock (E.sha256 (utf8Encode s))))
    (hsha : (E.sha256 (utf8Encode s)).length = 32) :
    (encrypt E p s r).iv = u8a2b64 r ∧
      b642u8a (encrypt E p s r).iv = some r ∧
      (b642u8a (encrypt E p s r).iv).map List.length = some 64 ∧
      (E.sha256 (utf8Encode s)).length = 32 ∧
      (encrypt E p s r).ciphertext =
        u8a2b64 (gcmEncrypt (E.aesBlock (E.sha256 (utf8Encode s))) r (utf8Encode p)) ∧
      b642u8a (encrypt E p s r).ciphertext =
        some (gcmEncrypt (E.aesBlock (E.sha256 (utf8Encode s))) r (utf8Encode p)) := by
  have hiv : (encrypt E p s r).iv = u8a2b64 r := rfl
  have hct : (encrypt E p s r).ciphertext =
      u8a2b64 (gcmEncrypt (E.aesBlock (E.sha256 (utf8Encode s))) r (utf8Encode p)) := rfl
  refine ⟨hiv, ?_, ?_, hsha, hct, ?_⟩
  · rw [hiv, b642u8a_u8a2b64 r hr]
  · rw [hiv, b642u8a_u8a2b64 r hr]
    simp [hlen]
  · rw [hct, b642u8a_u8a2b64 _ (gcmEncrypt_lt _ hwf _ _ (utf8Encode_lt p))]

theorem C4_encrypt_structure_witness :
    (∀ x ∈ List.replicate 64 3, x < 256) ∧ (List.replicate 64 3).length = 64 ∧
      BlockWF (toyEngine.aesBlock (toyEngine.sha256 (utf8Encode "s"))) ∧
      (toyEngine.sha256 (utf8Encode "s")).length = 32 ∧
      b642u8a (encrypt toyEngine "p" "s" (List.replicate 64 3)).iv =
        some (List.replicate 64 3) :=
  ⟨by decide, by decide, toyEngine_blockWF _, by decide,
    (C4_encrypt_structure toyEngine "p" "s" (List.replicate 64 3) (by decide) (by decide)
      (toyEngine_blockWF _) (by decide)).2.1⟩

/-- C5 counterexample: on an engine whose raw-key import accepts empty key
material (as the reference runtime recorded in the source's own comment
does), `hash("", salt)` does not fail with `InvalidKeyMaterial` — it
returns a derived hash. -/
theorem C5_counterexample :
    hash permissiveEngine "" "" ≠ .error .InvalidKeyMaterial ∧
      ∃ out, hash permissiveEngine "" "" = .ok out := by
  have hok : hash permissiveEngine "" "" =
      .ok (u8a2b64 (pbkdf2 permissiveEngine.hmacSHA512 (utf8Encode "") [] 1000 64 64)) := rfl
  exact ⟨by rw [hok]; simp, ⟨_, hok⟩⟩

/-- C5 (amended): the facade itself performs no empty-text guard; `hash`
fails with `InvalidKeyMaterial` exactly when the platform's raw-key import
rejects the empty key material, and that failure precedes the salt decode
(so it wins over any salt error). -/
theorem C5_empty_text (E : Engine) (s : String) (h : E.importKeyOk [] = false) :
    hash E "" s = .error .InvalidKeyMaterial := by
  unfold hash
  rw [show utf8Encode "" = [] from rfl, h]
  simp

theorem C5_empty_text_witness :
    toyEngine.importKeyOk [] = false ∧
      hash toyEngine "" "!" = .error .InvalidKeyMaterial :=
  ⟨by decide, C5_empty_text toyEngine "!" (by decide)⟩

/-- C6 counterexample: `"AB=="` is a syntactically valid standard base-64
string (standard alphabet, correct padding) but does not re-encode to
itself: its trailing pad bits are nonzero, so it decodes to `[0]`, which
re-encodes to `"AA=="`. -/
theorem C6_counterexample :
    specValidB64 "AB==" = true ∧ (b642u8a "AB==").map u8a2b64 ≠ some "AB==" := by
  constructor
  · decide
  · decide

/-- C6 (amended): decoding inverts encoding on every byte sequence, and
encoding inverts decoding on every string in the image of the encoder (the
canonical base-64 strings, i.e. those with zero trailing pad bits). -/
theorem C6_roundtrip (b : List Nat) (s : String) (hb : ∀ x ∈ b, x < 256)
    (hs : s = u8a2b64 b) :
    b642u8a (u8a2b64 b) = some b ∧ (b642u8a s).map u8a2b64 = some s := by
  have h := b642u8a_u8a2b64 b hb
  subst hs
  exact ⟨h, by simp [h]⟩

theorem C6_roundtrip_witness :
    (∀ x ∈ [77, 97, 110], x < 256) ∧ "TWFu" = u8a2b64 [77, 97, 110] ∧
      b642u8a (u8a2b64 [77, 97, 110]) = some [77, 97, 110] ∧
      (b642u8a "TWFu").map u8a2b64 = some "TWFu" :=
  ⟨by decide, by decide,
    (C6_roundtrip [77, 97, 110] "TWFu" (by decide) (by decide)).1,
    (C6_roundtrip [77, 97, 110] "TWFu" (by decide) (by decide)).2⟩

/-- C7 counterexample: `"AA"` is not a valid standard base-64 string (its
padding is omitted), yet the forgiving decoder accepts it, so `hash` with
salt `"AA"` does not fail with `InvalidEncoding` — it returns a derived
hash. -/
theorem C7_counterexample :
    specValidB64 "AA" = false ∧
      hash toyEngine "x" "AA" ≠ .error .InvalidEncoding ∧
      ∃ out, hash toyEngine "x" "AA" = .ok out := by
  have hok : hash toyEngine "x" "AA" =
      .ok (u8a2b64 (pbkdf2 toyEngine.hmacSHA512 (utf8Encode "x") [0] 1000 64 64)) := rfl
  exact ⟨by decide, by rw [hok]; simp, ⟨_, hok⟩⟩

/-- C7 (amended): an operation fails with `InvalidEncoding` exactly when
the forgiving base-64 decode (`atob`) rejects the input it decodes — a
length of 1 mod 4 after whitespace and padding handling, or a character
outside the alphabet: `hash` fails so when the salt is rejected (with text
accepted by key import), and `decrypt` when the iv or the ciphertext is
rejected; conversely, on inputs the decoder accepts (even strictly invalid
ones like unpadded `"AA"`) neither operation returns `InvalidEncoding`. -/
theorem C7_invalid_encoding (E : Engine) (t s ct iv iv2 secret : String) (ivB : List Nat)
    (himp : E.importKeyOk (utf8Encode t) = true)
    (hs : b642u8a s = none) (hiv : b642u8a iv = none)
    (hiv2 : b642u8a iv2 = some ivB) (hct : b642u8a ct = none) :
    hash E t s = .error .InvalidEncoding ∧
      decrypt E ct iv secret = .error .InvalidEncoding ∧
      decrypt E ct iv2 secret = .error .InvalidEncoding ∧
      (∀ s2 bs, b642u8a s2 = some bs → hash E t s2 ≠ .error .InvalidEncoding) ∧
      (∀ ct2 iv3 ivB2 ctB2, b642u8a iv3 = some ivB2 → b642u8a ct2 = some ctB2 →
        decrypt E ct2 iv3 secret ≠ .error .InvalidEncoding) := by
  refine ⟨?_, ?_, ?_, ?_, ?_⟩
  · unfold hash
    rw [himp, hs]
    simp
  · unfold decrypt
    rw [hiv]
  · unfold decrypt
    rw [hiv2, hct]
  · intro s2 bs hs2
    unfold hash
    rw [himp, hs2]
    simp
  · intro ct2 iv3 ivB2 ctB2 hiv3 hct2
    unfold decrypt
    rw [hiv3, hct2]
    rcases hg : gcmDecrypt (E.aesBlock (E.sha256 (utf8Encode secret))) ivB2 ctB2 with _ | pt
    · simp [hg]
    · simp [hg]

theorem C7_invalid_encoding_witness :
    toyEngine.importKeyOk (utf8Encode "x") = true ∧
      b642u8a "!" = none ∧ b642u8a "" = some [] ∧
      hash toyEngine "x" "!" = .error .InvalidEncoding ∧
      decrypt toyEngine "!" "!" "k" = .error .InvalidEncoding ∧
      decrypt toyEngine "!" "" "k" = .error .InvalidEncoding ∧
      hash toyEngine "x" "AA" ≠ .error .InvalidEncoding :=
  ⟨by decide, by decide, by decide,
    (C7_invalid_encoding toyEngine "x" "!" "!" "!" "" "k" [] (by decide) (by decide)
      (by decide) (by decide) (by decide)).1,
    (C7_invalid_encoding toyEngine "x" "!" "!" "!" "" "k" [] (by decide) (by decide)
      (by decide) (by decide) (by decide)).2.1,
    (C7_invalid_encoding toyEngine "x" "!" "!" "!" "" "k" [] (by decide) (by decide)
      (by decide) (by decide) (by decide)).2.2.1,
    (C7_invalid_encoding toyEngine "x" "!" "!" "!" "" "k" [] (by decide) (by decide)
      (by decide) (by decide) (by decide)).2.2.2.1 "AA" [0] (by decide)⟩

/-- C8: whenever the two random draws differ (the random source yields
fresh bytes on each call), two calls of `encrypt` on the same plaintext and
secret return different `iv` fields and different outputs. -/
theorem C8_fresh_iv (E : Engine) (p s : String) (r1 r2 : List Nat)
    (h1 : ∀ x ∈ r1, x < 256) (h2 : ∀ x ∈ r2, x < 256) (hne : r1 ≠ r2) :
    (encrypt E p s r1).iv ≠ (encrypt E p s r2).iv ∧
      encrypt E p s r1 ≠ encrypt E p s r2 := by
  have hiv : (encrypt E p s r1).iv ≠ (encrypt E p s r2).iv := by
    intro h
    apply hne
    have h2' := congrArg b642u8a h
    rw [show (encrypt E p s r1).iv = u8a2b64 r1 from rfl,
      show (encrypt E p s r2).iv = u8a2b64 r2 from rfl,
      b642u8a_u8a2b64 r1 h1, b642u8a_u8a2b64 r2 h2] at h2'
    exact Option.some.inj h2'
  exact ⟨hiv, fun h => hiv (congrArg Encryption.iv h)⟩

theorem C8_fresh_iv_witness :
    (∀ x ∈ [0], x < 256) ∧ (∀ x ∈ [1], x < 256) ∧ [0] ≠ [1] ∧
      (encrypt toyEngine "p" "s" [0]).iv ≠ (encrypt toyEngine "p" "s" [1]).iv :=
  ⟨by decide, by decide, by decide,
    (C8_fresh_iv toyEngine "p" "s" [0] [1] (by decide) (by decide) (by decide)).1⟩

/-- C9: `hash` depends on its salt argument only through the decoded bytes:
two salt strings with the same decoding (here including non-canonical
encodings) give the same hash for every text and engine. -/
theorem C9_salt_extensional (E : Engine) (t s1 s2 : String)
    (h : b642u8a s1 = b642u8a s2) : hash E t s1 = hash E t s2 := by
  unfold hash
  rw [h]

theorem C9_salt_extensional_witness :
    b642u8a "AA==" = b642u8a "AA" ∧
      hash toyEngine "x" "AA==" = hash toyEngine "x" "AA" :=
  ⟨by decide, C9_salt_extensional toyEngine "x" "AA==" "AA" (by decide)⟩

/-- C10: every string produced by `salt` from a 64-byte draw is a valid
standard base-64 string decoding to exactly those 64 bytes, and `hash`
applied to such a salt never fails with `InvalidEncoding` — the salt-decode
error branch is unreachable on salts produced by `salt()`. -/
theorem C10_salt_wellformed (r : List Nat) (hr : ∀ x ∈ r, x < 256)
    (hlen : r.length = 64) :
    specValidB64 (salt r) = true ∧
      b642u8a (salt r) = some r ∧
      (b642u8a (salt r)).map List.length = some 64 ∧
      ∀ (E : Engine) (t : String), hash E t (salt r) ≠ .error .InvalidEncoding := by
  have hdec : b642u8a (salt r) = some r := b642u8a_u8a2b64 r hr
  refine ⟨specValidB64_u8a2b64 r hr, hdec, by rw [hdec]; simp [hlen], ?_⟩
  intro E t
  unfold hash
  rcases hcase : E.importKeyOk (utf8Encode t) with _ | _
  · simp
  · rw [hdec]
    simp

theorem C10_salt_wellformed_witness :
    (∀ x ∈ List.replicate 64 0, x < 256) ∧ (List.replicate 64 0).length = 64 ∧
      b642u8a (salt (List.replicate 64 0)) = some (List.replicate 64 0) ∧
      hash toyEngine "hello" (salt (List.replicate 64 0)) ≠ .error .InvalidEncoding :=
  ⟨by decide, by decide,
    (C10_salt_wellformed (List.replicate 64 0) (by decide) (by decide)).2.1,
    (C10_salt_wellformed (List.replicate 64 0) (by decide) (by decide)).2.2.2
      toyEngine "hello"⟩

end Cryptography
